import Mathlib

/-!
Shallow embedding of the core client logic of the MotoBoard sound-board
application (`src/App.tsx`) and proofs about it: the waveform
analysis pipeline (`loadWaveform`), keybind chord canonicalization
(`formatKeybind`), the capped diagnostic log (`addLog`), queue playback and
stop-all state transitions, drag-and-drop reordering (`handleMouseUp`), and
the trim slider clamping logic.

JavaScript numbers are modelled as exact rationals extended with the IEEE
special values NaN and the two infinities (`JSNum`); rounding and signed
zeros are not modelled (all arithmetic appearing in the embedded code paths
is exact in the rationals).  Backend calls are modelled by passing their
outcome explicitly; `await`-sequenced calls become list-valued traces.
-/

namespace MotoBoard

/-- A JavaScript number: an exact rational, NaN, or one of the two
infinities.  Rounding and signed zeros are not modelled. -/
inductive JSNum where
  | nan : JSNum
  | inf : JSNum
  | ninf : JSNum
  | num : ℚ → JSNum
deriving DecidableEq

/-- JavaScript `Math.abs`. -/
def jsAbs : JSNum → JSNum
  | .nan => .nan
  | .inf => .inf
  | .ninf => .inf
  | .num q => .num |q|

/-- JavaScript `+` on numbers. -/
def jsAdd : JSNum → JSNum → JSNum
  | .nan, _ => .nan
  | _, .nan => .nan
  | .inf, .ninf => .nan
  | .ninf, .inf => .nan
  | .inf, _ => .inf
  | _, .inf => .inf
  | .ninf, _ => .ninf
  | _, .ninf => .ninf
  | .num a, .num b => .num (a + b)

/-- JavaScript `/` on numbers: division by zero yields NaN for a zero
numerator and a signed infinity otherwise. -/
def jsDiv : JSNum → JSNum → JSNum
  | .nan, _ => .nan
  | _, .nan => .nan
  | .inf, .inf => .nan
  | .inf, .ninf => .nan
  | .ninf, .inf => .nan
  | .ninf, .ninf => .nan
  | .inf, .num b => if b < 0 then .ninf else .inf
  | .ninf, .num b => if b < 0 then .inf else .ninf
  | .num _, .inf => .num 0
  | .num _, .ninf => .num 0
  | .num a, .num b =>
      if b = 0 then (if a = 0 then .nan else if a < 0 then .ninf else .inf)
      else .num (a / b)

/-- JavaScript binary `Math.max`: NaN-propagating maximum. -/
def jsMax : JSNum → JSNum → JSNum
  | .nan, _ => .nan
  | _, .nan => .nan
  | .inf, _ => .inf
  | _, .inf => .inf
  | .ninf, y => y
  | x, .ninf => x
  | .num a, .num b => .num (max a b)

/-- JavaScript array indexing on a decoded sample array: an out-of-range
read yields `undefined`, which `Math.abs`/arithmetic turn into NaN. -/
def jsIndex (channelData : List ℚ) (i : ℕ) : JSNum :=
  match channelData.get? i with
  | some q => .num q
  | none => .nan

/-! ### WaveformAnalyzer (`loadWaveform`, App.tsx lines 569-585)

The decoded single-channel data is a list of (finite) samples.  The code
uses `samples = 200` bars, `blockSize = Math.floor(channelData.length /
samples)`, accumulates `sum += Math.abs(channelData[i * blockSize + j])`
over `j < blockSize`, pushes `sum / blockSize`, and finally normalizes by
`Math.max(...waveform)`. -/

/-- The block size `Math.floor(channelData.length / 200)`. -/
def blockSize (channelData : List ℚ) : ℕ :=
  channelData.length / 200

/-- One entry pushed onto `waveform`: the inner `for` loop accumulating
absolute sample values, divided by `blockSize`. -/
def rawBucket (channelData : List ℚ) (i : ℕ) : JSNum :=
  let bs := blockSize channelData
  let sum := (List.range bs).foldl
    (fun acc j => jsAdd acc (jsAbs (jsIndex channelData (i * bs + j))))
    (.num 0)
  jsDiv sum (.num bs)

/-- The `waveform` array after the outer `for` loop (`samples = 200`). -/
def waveform (channelData : List ℚ) : List JSNum :=
  (List.range 200).map (rawBucket channelData)

/-- The value `const max = Math.max(...waveform)` (spreading starts the
reduction from `-Infinity`, as `Math.max()` does). -/
def waveformMax (channelData : List ℚ) : JSNum :=
  (waveform channelData).foldl jsMax .ninf

/-- The normalized waveform `waveform.map(v => v / max)` stored into
`waveformData`. -/
def normalizedWaveform (channelData : List ℚ) : List JSNum :=
  (waveform channelData).map (fun v => jsDiv v (waveformMax channelData))

/-- Mathematical mean absolute amplitude of a sample block (spec-side
definition used to state what a bucket is). -/
def meanAbs (block : List ℚ) : ℚ :=
  (block.map (fun x => |x|)).sum / block.length

/-- The i-th contiguous block of `blockSize` samples (spec-side definition). -/
def sampleBlock (channelData : List ℚ) (i : ℕ) : List ℚ :=
  (channelData.drop (i * blockSize channelData)).take (blockSize channelData)

/-! ### KeybindRecorder (`formatKeybind`, App.tsx lines 87-99) -/

/-- JavaScript `String.prototype.toUpperCase` (ASCII range; every key name
appearing in the claims is ASCII). -/
def jsToUpperCase (s : String) : String :=
  ⟨s.data.map Char.toUpper⟩

/-- The uppercased names the code refuses to push as a key token
(`['CONTROL', 'ALT', 'SHIFT', 'META']`). -/
def modifierTokens : List String := ["CONTROL", "ALT", "SHIFT", "META"]

/-- The projection of a DOM `KeyboardEvent` that `formatKeybind` and
`handleGlobalKeyDown` consume. -/
structure KeyboardEvent where
  ctrlKey : Bool
  altKey : Bool
  shiftKey : Bool
  key : String
deriving DecidableEq

/-- `formatKeybind` (App.tsx lines 87-99): pushes `Ctrl`, `Alt`, `Shift`
in that order for the active modifiers, then the uppercased key unless it
is itself a modifier name (space becomes the token `Space`), and joins
with `+`. -/
def formatKeybind (e : KeyboardEvent) : String :=
  let parts : List String :=
    (if e.ctrlKey then ["Ctrl"] else []) ++
    (if e.altKey then ["Alt"] else []) ++
    (if e.shiftKey then ["Shift"] else [])
  let key := jsToUpperCase e.key
  let parts :=
    if modifierTokens.contains key then parts
    else parts ++ [if key = " " then "Space" else key]
  String.intercalate "+" parts

/-! ### Data model -/

/-- The `Sound` record (App.tsx lines 6-22).  Optional TS fields become
`Option`; numbers become exact rationals. -/
structure Sound where
  id : String
  name : String
  keybind : Option String
  volume : ℚ
  filePath : String
  startTime : Option ℚ
  endTime : Option ℚ
  order : ℚ
  loopMode : Option Bool
  playbackSpeed : Option ℚ
  echoDelay : Option ℚ
  echoVolume : Option ℚ
  reverbDecay : Option ℚ
  bassBoost : Option ℚ
  fakeBassBoost : Option ℚ
deriving DecidableEq

instance : Inhabited Sound :=
  ⟨⟨"", "", none, 0, "", none, none, 0, none, none, none, none, none, none, none⟩⟩

/-- Log severity (`LogEntry['type']`, App.tsx line 32). -/
inductive LogSeverity where
  | info : LogSeverity
  | success : LogSeverity
  | error : LogSeverity
  | debug : LogSeverity
  | warn : LogSeverity
deriving DecidableEq

/-- A console log entry (App.tsx lines 29-33). -/
structure LogEntry where
  timestamp : String
  message : String
  severity : LogSeverity
deriving DecidableEq

/-- The state update performed by `addLog` (App.tsx line 77):
`setLogs(prev => [...prev.slice(-100), { timestamp, message, type }])`.
`slice(-100)` keeps the last `min 100 (length prev)` entries, here
`drop (length - 100)` with truncated subtraction. -/
def addLogUpdate (prev : List LogEntry) (entry : LogEntry) : List LogEntry :=
  prev.drop (prev.length - 100) ++ [entry]

/-! ### PlaybackQueueOrchestrator (App.tsx lines 393-456)

The queue-related component state, with `pollActive` recording whether the
`checkQueue` interval created in `playQueue` is currently running.  Each
backend call's outcome is passed explicitly (`ok = false` means the
`invoke` rejected and the `catch` branch ran). -/

structure QueueState where
  soundQueue : List String
  isQueuePlaying : Bool
  playingSound : Option String
  pollActive : Bool
deriving DecidableEq

/-- `stopAllSounds` (App.tsx lines 393-405): on a successful `stop_all`
call it clears the playing sound, the queue-playing flag and the queue;
the `catch` branch only logs.  It contains no `clearInterval`, so
`pollActive` is untouched. -/
def stopAllSounds (ok : Bool) (s : QueueState) : QueueState :=
  if ok then { s with playingSound := none, isQueuePlaying := false, soundQueue := [] }
  else s

/-- `playQueue` (App.tsx lines 431-456): rejects an empty queue with no
backend call; otherwise sets the playing flag, invokes `play_queue` and on
success starts the `checkQueue` polling interval; on failure the `catch`
branch clears the flag (and no interval was started). -/
def playQueue (ok : Bool) (s : QueueState) : QueueState :=
  if s.soundQueue.isEmpty then s
  else if ok then { s with isQueuePlaying := true, pollActive := true }
  else { s with isQueuePlaying := false }

/-- One tick of the `checkQueue` interval callback (App.tsx lines 442-451)
with the boolean `is_queue_playing` response: when the backend reports not
playing, it clears the flag and the queue and `clearInterval`s itself.  A
tick only happens while the interval is active. -/
def queuePollTick (playing : Bool) (s : QueueState) : QueueState :=
  if ¬ s.pollActive then s
  else if ¬ playing then
    { s with isQueuePlaying := false, soundQueue := [], pollActive := false }
  else s

/-- `addToQueue` (App.tsx lines 407-417): the `add_to_queue` response (the
authoritative queue) replaces the local queue; on failure the `catch`
branch only logs and the local state is untouched. -/
def addToQueue (response : Except Unit (List String)) (s : QueueState) : QueueState :=
  match response with
  | .ok queue => { s with soundQueue := queue }
  | .error _ => s

/-! ### SoundLibraryStore reorder (`handleMouseUp`, App.tsx lines 813-850) -/

/-- The reorder performed by `handleMouseUp` when the mouse is released
over the card `soundId` while `draggedSound` is being dragged: release
over the origin (or with no drag) leaves the list unchanged; otherwise
the dragged sound is spliced out of its index and spliced back in at the
target's index. -/
def handleMouseUpReorder (sounds : List Sound) (draggedSound : Option String)
    (soundId : String) : List Sound :=
  match draggedSound with
  | none => sounds
  | some dragged =>
    if dragged = soundId then sounds
    else
      match sounds.findIdx? (fun s => s.id == dragged),
            sounds.findIdx? (fun s => s.id == soundId) with
      | some draggedIndex, some targetIndex =>
          let removed := sounds.getD draggedIndex default
          (sounds.eraseIdx draggedIndex).insertIdx targetIndex removed
      | _, _ => sounds

/-! ### Trim sliders (App.tsx lines 1492-1518) -/

/-- JavaScript `x || d` on an optional number: `undefined` and `0` are
falsy. -/
def jsOrQ (v : Option ℚ) (dflt : ℚ) : ℚ :=
  match v with
  | some x => if x = 0 then dflt else x
  | none => dflt

/-- The trim bounds of the sound being edited. -/
structure TrimState where
  startTime : Option ℚ
  endTime : Option ℚ
deriving DecidableEq

/-- The start slider `onChange` (App.tsx lines 1492-1499):
`startTime := Math.min(newStart, (endTime || audioDuration) - 0.5)`. -/
def trimStartChange (ts : TrimState) (audioDuration newStart : ℚ) : TrimState :=
  let currentEnd := jsOrQ ts.endTime audioDuration
  { ts with startTime := some (min newStart (currentEnd - 1/2)) }

/-- The end slider `onChange` (App.tsx lines 1511-1518):
`endTime := Math.max(newEnd, (startTime || 0) + 0.5)`. -/
def trimEndChange (ts : TrimState) (audioDuration newEnd : ℚ) : TrimState :=
  let currentStart := jsOrQ ts.startTime 0
  let _ := audioDuration
  { ts with endTime := some (max newEnd (currentStart + 1/2)) }

/-! ### Keybind recording (`handleGlobalKeyDown`, App.tsx lines 142-172) -/

/-- The raw key names that keep the recording session open
(`['Control', 'Alt', 'Shift', 'Meta']`, App.tsx line 147). -/
def pureModifierKeys : List String := ["Control", "Alt", "Shift", "Meta"]

/-- The recording target discriminator (`recordingKeybind` state,
App.tsx line 48). -/
inductive RecordingTarget where
  | sound : RecordingTarget
  | stopAll : RecordingTarget
deriving DecidableEq

/-- The backend commands issued by the keybind-recording flow, in issuance
order. -/
inductive BackendCall where
  | unregisterStopAll (keybind : String) : BackendCall
  | registerStopAll (keybind : String) : BackendCall
  | setStopAllKeybindCmd (keybind : String) : BackendCall
  | unregisterSound (keybind : String) : BackendCall
  | registerSound (soundId : String) (keybind : String) : BackendCall
deriving DecidableEq

/-- The component state consumed by `handleGlobalKeyDown`. -/
structure KeybindState where
  recordingKeybind : Option RecordingTarget
  stopAllKeybind : String
  editingSound : Option Sound
deriving DecidableEq

/-- `handleGlobalKeyDown` (App.tsx lines 142-172): returns the new state
and the list of backend calls in the order they are issued and awaited.
`regOk` is the outcome of the register call: it is caught inside
`registerStopAllKeybind` / `registerSoundKeybind` and only logged, so it
cannot alter state or control flow.  `persistOk` is the outcome of the
un-caught `invoke('set_stop_all_keybind')`: when it rejects, the handler
aborts before `setRecordingKeybind(null)` runs. -/
def handleGlobalKeyDown (e : KeyboardEvent) (persistOk regOk : Bool)
    (s : KeybindState) : KeybindState × List BackendCall :=
  let _ := regOk
  match s.recordingKeybind with
  | none => (s, [])
  | some target =>
    if pureModifierKeys.contains e.key then (s, [])
    else
      let keybind := formatKeybind e
      match target with
      | .stopAll =>
          let unregCalls :=
            if s.stopAllKeybind ≠ "" then [BackendCall.unregisterStopAll s.stopAllKeybind]
            else []
          let calls := unregCalls ++
            [BackendCall.registerStopAll keybind, BackendCall.setStopAllKeybindCmd keybind]
          ({ s with stopAllKeybind := keybind,
                    recordingKeybind := if persistOk then none else s.recordingKeybind },
           calls)
      | .sound =>
          match s.editingSound with
          | some snd =>
              let unregCalls := match snd.keybind with
                | some old => if old ≠ "" then [BackendCall.unregisterSound old] else []
                | none => []
              let calls := unregCalls ++ [BackendCall.registerSound snd.id keybind]
              ({ s with editingSound := some { snd with keybind := some keybind },
                        recordingKeybind := none },
               calls)
          | none => ({ s with recordingKeybind := none }, [])

/-- Occurrence order in a call trace: `a` is issued strictly before `b`. -/
def CallBefore (a b : BackendCall) (trace : List BackendCall) : Prop :=
  ∃ l₁ l₂, trace = l₁ ++ a :: l₂ ∧ b ∈ l₂

/-- A three-sound library used as a concrete witness input. -/
def soundsABC : List Sound :=
  [{ (default : Sound) with id := "a" }, { (default : Sound) with id := "b" },
   { (default : Sound) with id := "c" }]

/-- The bucket values as rationals (defined for `blockSize ≥ 1`). -/
def bucketVal (cd : List ℚ) (i : ℕ) : ℚ :=
  meanAbs (sampleBlock cd i)

/-- The tail of the bucket list, as used to fold the maximum. -/
def bucketTail (cd : List ℚ) : List ℚ :=
  (List.range 199).map (fun j => bucketVal cd (j + 1))

/-- The maximum bucket value. -/
def bucketMax (cd : List ℚ) : ℚ :=
  (bucketTail cd).foldl max (bucketVal cd 0)

/-! ### Helper lemmas about the JS arithmetic folds -/

lemma foldl_jsAdd_num (f : ℕ → JSNum) (g : ℕ → ℚ) :
    ∀ (l : List ℕ), (∀ j ∈ l, f j = .num (g j)) → ∀ (a : ℚ),
      l.foldl (fun acc j => jsAdd acc (f j)) (.num a) = .num (a + (l.map g).sum) := by
  intro l
  induction l with
  | nil => intro _ a; simp
  | cons x xs ih =>
    intro h a
    have hx : f x = .num (g x) := h x (by simp)
    have hxs : ∀ j ∈ xs, f j = .num (g j) := fun j hj => h j (by simp [hj])
    simp only [List.foldl_cons, hx]
    show xs.foldl (fun acc j => jsAdd acc (f j)) (.num (a + g x)) = _
    rw [ih hxs (a + g x)]
    simp [add_assoc]

lemma foldl_jsMax_nan : ∀ (l : List JSNum), l.foldl jsMax .nan = .nan := by
  intro l
  induction l with
  | nil => rfl
  | cons x xs ih => simpa [jsMax] using ih

lemma foldl_jsMax_num (l : List ℚ) : ∀ (a : ℚ),
    (l.map JSNum.num).foldl jsMax (.num a) = .num (l.foldl max a) := by
  induction l with
  | nil => intro a; rfl
  | cons x xs ih => intro a; simpa [jsMax] using ih (max a x)

lemma foldl_jsMax_ninf_cons (q : ℚ) (l : List ℚ) :
    (((q :: l).map JSNum.num).foldl jsMax .ninf) = .num (l.foldl max q) := by
  simpa [jsMax] using foldl_jsMax_num l q

lemma le_foldl_max (l : List ℚ) : ∀ (a : ℚ), a ≤ l.foldl max a := by
  induction l with
  | nil => intro a; simp
  | cons x xs ih =>
    intro a
    calc a ≤ max a x := le_max_left a x
    _ ≤ xs.foldl max (max a x) := ih (max a x)

lemma foldl_max_le (l : List ℚ) : ∀ (a x : ℚ), x ∈ l → x ≤ l.foldl max a := by
  induction l with
  | nil => intro _ x hx; simp at hx
  | cons y ys ih =>
    intro a x hx
    rcases List.mem_cons.mp hx with rfl | hx
    · calc x ≤ max a x := le_max_right a x
      _ ≤ ys.foldl max (max a x) := le_foldl_max ys (max a x)
    · exact ih (max a y) x hx

lemma foldl_max_eq_or_mem (l : List ℚ) : ∀ (a : ℚ),
    l.foldl max a = a ∨ l.foldl max a ∈ l := by
  induction l with
  | nil => intro a; left; rfl
  | cons x xs ih =>
    intro a
    rcases ih (max a x) with h | h
    · rcases max_cases a x with ⟨hm, _⟩ | ⟨hm, _⟩
      · left; simp only [List.foldl_cons]; rw [h, hm]
      · right; simp only [List.foldl_cons]; rw [h, hm]; exact List.mem_cons_self x xs
    · right; simp only [List.foldl_cons]; exact List.mem_cons_of_mem x h

/-! ### Characterization of the waveform buckets -/

lemma blockSize_mul_le (cd : List ℚ) : 200 * blockSize cd ≤ cd.length := by
  rw [Nat.mul_comm]; exact Nat.div_mul_le_self cd.length 200

lemma index_lt (cd : List ℚ) {i j : ℕ} (hi : i < 200) (hj : j < blockSize cd) :
    i * blockSize cd + j < cd.length := by
  have h1 : i * blockSize cd + j < (i + 1) * blockSize cd := by
    rw [Nat.succ_mul]; exact Nat.add_lt_add_left hj _
  have h2 : (i + 1) * blockSize cd ≤ 200 * blockSize cd :=
    Nat.mul_le_mul_right _ hi
  exact lt_of_lt_of_le h1 (le_trans h2 (blockSize_mul_le cd))

lemma jsIndex_in_range (cd : List ℚ) {k : ℕ} (hk : k < cd.length) :
    jsIndex cd k = .num (cd.getD k 0) := by
  unfold jsIndex
  rw [List.get?_eq_getElem?, List.getElem?_eq_getElem hk, List.getD_eq_getElem cd 0 hk]

lemma drop_take_eq_range_map (l : List ℚ) (m k : ℕ) (h : m + k ≤ l.length) :
    (l.drop m).take k = (List.range k).map (fun j => l.getD (m + j) 0) := by
  apply List.ext_getElem
  · simp only [List.length_take, List.length_drop, List.length_map, List.length_range]
    omega
  · intro j h1 h2
    have hj : j < k := by
      simp only [List.length_take, List.length_drop, lt_min_iff] at h1
      exact h1.1
    have hmj : m + j < l.length := by omega
    rw [List.getElem_take, List.getElem_drop, List.getElem_map, List.getElem_range,
      List.getD_eq_getElem l 0 hmj]

lemma sampleBlock_eq (cd : List ℚ) (i : ℕ) (hi : i < 200) :
    sampleBlock cd i =
      (List.range (blockSize cd)).map (fun j => cd.getD (i * blockSize cd + j) 0) := by
  unfold sampleBlock
  apply drop_take_eq_range_map
  have h1 : i * blockSize cd + blockSize cd = (i + 1) * blockSize cd := by
    rw [Nat.succ_mul]
  rw [h1]
  exact le_trans (Nat.mul_le_mul_right _ hi) (blockSize_mul_le cd)

lemma rawBucket_eq_meanAbs (cd : List ℚ) (i : ℕ) (hi : i < 200)
    (hbs : 1 ≤ blockSize cd) :
    rawBucket cd i = .num (meanAbs (sampleBlock cd i)) := by
  have hfold := foldl_jsAdd_num
    (fun j => jsAbs (jsIndex cd (i * blockSize cd + j)))
    (fun j => |cd.getD (i * blockSize cd + j) 0|)
    (List.range (blockSize cd))
    (fun j hj => by
      show jsAbs (jsIndex cd (i * blockSize cd + j)) =
        JSNum.num |cd.getD (i * blockSize cd + j) 0|
      rw [jsIndex_in_range cd (index_lt cd hi (List.mem_range.mp hj))]
      rfl)
    0
  have hbsq : ((blockSize cd : ℚ)) ≠ 0 := by
    have h0 : blockSize cd ≠ 0 := by omega
    exact_mod_cast h0
  unfold rawBucket
  show jsDiv
      (List.foldl (fun acc j => jsAdd acc (jsAbs (jsIndex cd (i * blockSize cd + j))))
        (JSNum.num 0) (List.range (blockSize cd)))
      (JSNum.num (blockSize cd)) = JSNum.num (meanAbs (sampleBlock cd i))
  rw [hfold]
  rw [meanAbs, sampleBlock_eq cd i hi]
  simp [jsDiv, hbsq, List.map_map, Function.comp_def]

lemma meanAbs_nonneg (block : List ℚ) : 0 ≤ meanAbs block := by
  unfold meanAbs
  apply div_nonneg
  · apply List.sum_nonneg
    intro x hx
    rcases List.mem_map.mp hx with ⟨y, _, rfl⟩
    exact abs_nonneg y
  · positivity

lemma rawBucket_of_blockSize_zero (cd : List ℚ) (hbs : blockSize cd = 0) (i : ℕ) :
    rawBucket cd i = .nan := by
  unfold rawBucket
  rw [hbs]
  simp [jsDiv]

/-! ### Silent (all-zero) input -/

lemma meanAbs_all_zero (cd : List ℚ) (hall : ∀ x ∈ cd, x = 0) (i : ℕ) :
    meanAbs (sampleBlock cd i) = 0 := by
  rw [meanAbs]
  have hz : ∀ x ∈ sampleBlock cd i, x = 0 := by
    intro x hx
    simp only [sampleBlock] at hx
    exact hall x (List.mem_of_mem_drop (List.mem_of_mem_take hx))
  have hsum : ((sampleBlock cd i).map (fun x => |x|)).sum = 0 := by
    apply List.sum_eq_zero
    intro x hx
    rcases List.mem_map.mp hx with ⟨y, hy, rfl⟩
    rw [hz y hy]
    simp
  rw [hsum]
  simp

lemma waveform_silent (cd : List ℚ) (hall : ∀ x ∈ cd, x = 0)
    (hbs : 1 ≤ blockSize cd) : waveform cd = List.replicate 200 (.num 0) := by
  rw [waveform]
  rw [List.map_congr_left (g := fun _ => JSNum.num 0) (fun i hi => by
    rw [rawBucket_eq_meanAbs cd i (List.mem_range.mp hi) hbs, meanAbs_all_zero cd hall i])]
  rw [List.map_const', List.length_range]

lemma foldl_max_zeros (n : ℕ) : (List.replicate n (0:ℚ)).foldl max 0 = 0 := by
  rcases foldl_max_eq_or_mem (List.replicate n 0) 0 with h | h
  · exact h
  · exact List.eq_of_mem_replicate h

lemma waveformMax_silent (cd : List ℚ) (hall : ∀ x ∈ cd, x = 0)
    (hbs : 1 ≤ blockSize cd) : waveformMax cd = .num 0 := by
  rw [waveformMax, waveform_silent cd hall hbs]
  rw [show List.replicate 200 (JSNum.num 0) = (List.replicate 200 (0:ℚ)).map JSNum.num from
    List.map_replicate.symm]
  rw [show List.replicate 200 (0:ℚ) = 0 :: List.replicate 199 0 from List.replicate_succ 0 199]
  rw [foldl_jsMax_ninf_cons, foldl_max_zeros]

lemma jsDiv_nan_left (x : JSNum) : jsDiv .nan x = .nan := by
  cases x <;> rfl

lemma normalized_nan_of_blockSize_zero (cd : List ℚ) (hbs0 : blockSize cd = 0) :
    ∀ v ∈ normalizedWaveform cd, v = JSNum.nan := by
  intro v hv
  rw [normalizedWaveform] at hv
  rcases List.mem_map.mp hv with ⟨w, hw, rfl⟩
  rw [waveform] at hw
  rcases List.mem_map.mp hw with ⟨i, _, rfl⟩
  rw [rawBucket_of_blockSize_zero cd hbs0 i]
  exact jsDiv_nan_left _

lemma silent_normalized (cd : List ℚ) (hall : ∀ x ∈ cd, x = 0) :
    ∀ v ∈ normalizedWaveform cd, v = JSNum.nan := by
  by_cases hbs : 1 ≤ blockSize cd
  · intro v hv
    rw [normalizedWaveform] at hv
    rcases List.mem_map.mp hv with ⟨w, hw, rfl⟩
    rw [waveform_silent cd hall hbs] at hw
    rw [List.eq_of_mem_replicate hw, waveformMax_silent cd hall hbs]
    simp [jsDiv]
  · exact normalized_nan_of_blockSize_zero cd (by omega)

lemma length_normalizedWaveform (cd : List ℚ) :
    (normalizedWaveform cd).length = 200 := by
  simp [normalizedWaveform, waveform]

/-! ### Non-silent input: the maximum bucket and the [0,1] bounds -/

lemma waveform_eq_map_bucketVal (cd : List ℚ) (hbs : 1 ≤ blockSize cd) :
    waveform cd = ((List.range 200).map (bucketVal cd)).map JSNum.num := by
  rw [waveform]
  rw [List.map_congr_left (g := fun i => JSNum.num (bucketVal cd i)) (fun i hi =>
    rawBucket_eq_meanAbs cd i (List.mem_range.mp hi) hbs)]
  rw [List.map_map]
  rfl

lemma range_200_map_bucketVal (cd : List ℚ) :
    (List.range 200).map (bucketVal cd) = bucketVal cd 0 :: bucketTail cd := by
  have hr : List.range 200 = 0 :: (List.range 199).map Nat.succ := by
    rw [show (200:ℕ) = 199 + 1 from rfl, List.range_succ_eq_map]
  rw [hr, List.map_cons, List.map_map]
  rfl

lemma waveformMax_eq_bucketMax (cd : List ℚ) (hbs : 1 ≤ blockSize cd) :
    waveformMax cd = JSNum.num (bucketMax cd) := by
  rw [waveformMax, waveform_eq_map_bucketVal cd hbs, range_200_map_bucketVal]
  exact foldl_jsMax_ninf_cons _ _

lemma bucketVal_le_bucketMax (cd : List ℚ) {i : ℕ} (hi : i < 200) :
    bucketVal cd i ≤ bucketMax cd := by
  rcases Nat.eq_zero_or_pos i with rfl | hpos
  · exact le_foldl_max _ _
  · obtain ⟨j, rfl⟩ := Nat.exists_eq_succ_of_ne_zero (Nat.pos_iff_ne_zero.mp hpos)
    apply foldl_max_le
    exact List.mem_map.mpr ⟨j, List.mem_range.mpr (by omega), rfl⟩

lemma bucketMax_attained (cd : List ℚ) :
    ∃ i, i < 200 ∧ bucketMax cd = bucketVal cd i := by
  rcases foldl_max_eq_or_mem (bucketTail cd) (bucketVal cd 0) with h | h
  · exact ⟨0, by norm_num, h⟩
  · rcases List.mem_map.mp h with ⟨j, hj, hje⟩
    exact ⟨j + 1, by have := List.mem_range.mp hj; omega, hje.symm⟩

lemma bucketVal_pos_of_nonzero_sample (cd : List ℚ) {k : ℕ}
    (hk : k < 200 * blockSize cd) (hknz : cd.getD k 0 ≠ 0)
    (hbs : 1 ≤ blockSize cd) :
    0 < bucketVal cd (k / blockSize cd) := by
  have hbspos : 0 < blockSize cd := hbs
  have hi0 : k / blockSize cd < 200 := by
    rw [Nat.div_lt_iff_lt_mul hbspos]
    exact hk
  rw [bucketVal, meanAbs, sampleBlock_eq cd _ hi0]
  apply div_pos
  · -- the term at j = k % blockSize cd is |cd.getD k 0| > 0
    have hmod : k / blockSize cd * blockSize cd + k % blockSize cd = k := by
      rw [Nat.mul_comm]
      exact Nat.div_add_mod k (blockSize cd)
    have hmem : |cd.getD k 0| ∈
        (((List.range (blockSize cd)).map
          (fun j => cd.getD (k / blockSize cd * blockSize cd + j) 0)).map
            (fun x => |x|)) := by
      apply List.mem_map.mpr
      refine ⟨cd.getD k 0, ?_, rfl⟩
      apply List.mem_map.mpr
      exact ⟨k % blockSize cd, List.mem_range.mpr (Nat.mod_lt k hbspos), by rw [hmod]⟩
    have hnn : ∀ x ∈ (((List.range (blockSize cd)).map
        (fun j => cd.getD (k / blockSize cd * blockSize cd + j) 0)).map
          (fun x => |x|)), 0 ≤ x := by
      intro x hx
      rcases List.mem_map.mp hx with ⟨y, _, rfl⟩
      exact abs_nonneg y
    calc (0:ℚ) < |cd.getD k 0| := abs_pos.mpr hknz
    _ ≤ _ := List.single_le_sum hnn _ hmem
  · simp only [List.length_map, List.length_range]
    exact_mod_cast hbspos

lemma bucketMax_pos (cd : List ℚ) (hbs : 1 ≤ blockSize cd)
    (hnz : ∃ k, k < 200 * blockSize cd ∧ cd.getD k 0 ≠ 0) :
    0 < bucketMax cd := by
  obtain ⟨k, hk, hknz⟩ := hnz
  have hbspos : 0 < blockSize cd := hbs
  have hi0 : k / blockSize cd < 200 := by
    rw [Nat.div_lt_iff_lt_mul hbspos]
    exact hk
  exact lt_of_lt_of_le (bucketVal_pos_of_nonzero_sample cd hk hknz hbs)
    (bucketVal_le_bucketMax cd hi0)

/-! ## Claim theorems: WaveformAnalyzer -/

/-- C1 (code bug exhibited): the claim states that an all-zero (silent)
decoded input is treated as already-normalized and that the 200 bucket
values are well-defined numbers, never NaN.  The code (App.tsx lines
582-584) divides by `Math.max(...waveform)` without any guard, so a silent
input of 300 samples produces `0 / 0 = NaN` in every single bucket. -/
theorem silent_input_every_bucket_nan :
    normalizedWaveform (List.replicate 300 (0:ℚ)) = List.replicate 200 JSNum.nan := by
  rw [List.eq_replicate_iff]
  refine ⟨length_normalizedWaveform _, ?_⟩
  exact silent_normalized _ (fun x hx => List.eq_of_mem_replicate hx)

/-- C8 (confirmed): for every decoded single-channel sample sequence the
normalized waveform buffer has exactly 200 buckets regardless of input
length, and whenever the input has at least 200 samples (so that the
blocks of `floor(length/200)` samples are nonempty) the i-th
pre-normalization bucket is the mean absolute amplitude of the i-th
contiguous block. -/
theorem waveform_200_buckets_mean_abs :
    ∀ (cd : List ℚ),
      (normalizedWaveform cd).length = 200 ∧
      (∀ i < 200, 200 ≤ cd.length →
        rawBucket cd i = JSNum.num (meanAbs (sampleBlock cd i))) := by
  intro cd
  refine ⟨length_normalizedWaveform cd, ?_⟩
  intro i hi hlen
  have hbs : 1 ≤ blockSize cd := (Nat.one_le_div_iff (by norm_num)).mpr hlen
  exact rawBucket_eq_meanAbs cd i hi hbs

set_option maxRecDepth 4000 in
/-- Witness for C8 at a concrete input of 200 unit samples. -/
theorem waveform_200_buckets_mean_abs_witness :
    ((0:ℕ) < 200 ∧ (200:ℕ) ≤ (List.replicate 200 (1:ℚ)).length) ∧
    rawBucket (List.replicate 200 (1:ℚ)) 0 =
      JSNum.num (meanAbs (sampleBlock (List.replicate 200 (1:ℚ)) 0)) :=
  ⟨⟨by norm_num, by simp⟩,
    (waveform_200_buckets_mean_abs (List.replicate 200 1)).2 0 (by norm_num) (by simp)⟩

/-- C9 (corrected): for a decoded input with at least 200 samples that has
a nonzero sample inside the covered region (the first
`200 * floor(length/200)` samples), every normalized bucket is a rational
in [0,1] and at least one bucket equals 1.  (As literally stated, with a
nonzero sample anywhere and any length, the claim is false: see the
counterexample.) -/
theorem nonsilent_normalized_unit_interval (cd : List ℚ)
    (hlen : 200 ≤ cd.length)
    (hnz : ∃ k, k < 200 * blockSize cd ∧ cd.getD k 0 ≠ 0) :
    (∀ v ∈ normalizedWaveform cd, ∃ q : ℚ, v = JSNum.num q ∧ 0 ≤ q ∧ q ≤ 1) ∧
    (∃ v ∈ normalizedWaveform cd, v = JSNum.num 1) := by
  have hbs : 1 ≤ blockSize cd := (Nat.one_le_div_iff (by norm_num)).mpr hlen
  have hMpos : 0 < bucketMax cd := bucketMax_pos cd hbs hnz
  have hMne : bucketMax cd ≠ 0 := ne_of_gt hMpos
  constructor
  · intro v hv
    rw [normalizedWaveform, waveform_eq_map_bucketVal cd hbs,
      waveformMax_eq_bucketMax cd hbs] at hv
    rcases List.mem_map.mp hv with ⟨w, hw, rfl⟩
    rcases List.mem_map.mp hw with ⟨q, hq, rfl⟩
    rcases List.mem_map.mp hq with ⟨i, hir, rfl⟩
    have hile : i < 200 := List.mem_range.mp hir
    refine ⟨bucketVal cd i / bucketMax cd, ?_, ?_, ?_⟩
    · simp [jsDiv, hMne]
    · exact div_nonneg (meanAbs_nonneg _) (le_of_lt hMpos)
    · exact (div_le_one hMpos).mpr (bucketVal_le_bucketMax cd hile)
  · obtain ⟨i, hi, hMi⟩ := bucketMax_attained cd
    refine ⟨jsDiv (JSNum.num (bucketVal cd i)) (JSNum.num (bucketMax cd)), ?_, ?_⟩
    · rw [normalizedWaveform, waveform_eq_map_bucketVal cd hbs,
        waveformMax_eq_bucketMax cd hbs]
      exact List.mem_map.mpr ⟨JSNum.num (bucketVal cd i),
        List.mem_map.mpr ⟨bucketVal cd i,
          List.mem_map.mpr ⟨i, List.mem_range.mpr hi, rfl⟩, rfl⟩, rfl⟩
    · rw [← hMi]
      simp [jsDiv, hMne, div_self hMne]

set_option maxRecDepth 4000 in
/-- Witness for C9 at the concrete input `1 :: 199 zeros`. -/
theorem nonsilent_normalized_unit_interval_witness :
    ((200:ℕ) ≤ ((1:ℚ) :: List.replicate 199 0).length ∧
      0 < 200 * blockSize ((1:ℚ) :: List.replicate 199 0) ∧
      ((1:ℚ) :: List.replicate 199 0).getD 0 0 ≠ 0) ∧
    ((∀ v ∈ normalizedWaveform ((1:ℚ) :: List.replicate 199 0),
        ∃ q : ℚ, v = JSNum.num q ∧ 0 ≤ q ∧ q ≤ 1) ∧
      (∃ v ∈ normalizedWaveform ((1:ℚ) :: List.replicate 199 0), v = JSNum.num 1)) :=
  ⟨⟨by simp, by norm_num [blockSize], by norm_num⟩,
    nonsilent_normalized_unit_interval ((1:ℚ) :: List.replicate 199 0)
      (by simp)
      ⟨0, by norm_num [blockSize], by norm_num⟩⟩

/-- Counterexample for C9 as literally stated: the input `[1]` is
non-silent and of length 1, but with `blockSize = 0` every bucket is
`0 / 0 = NaN`, so no bucket lies in [0,1] and none equals 1. -/
theorem nonsilent_short_input_all_nan :
    (∃ x ∈ [(1:ℚ)], x ≠ 0) ∧
    ¬ ((∀ v ∈ normalizedWaveform [(1:ℚ)], ∃ q : ℚ, v = JSNum.num q ∧ 0 ≤ q ∧ q ≤ 1) ∧
       (∃ v ∈ normalizedWaveform [(1:ℚ)], v = JSNum.num 1)) := by
  constructor
  · exact ⟨1, by simp, one_ne_zero⟩
  · rintro ⟨-, v, hv, hv1⟩
    have hbs0 : blockSize [(1:ℚ)] = 0 := rfl
    rw [normalized_nan_of_blockSize_zero [(1:ℚ)] hbs0 v hv] at hv1
    exact JSNum.noConfusion hv1

/-! ## Claim theorems: KeybindRecorder canonicalization -/

/-- C5 (confirmed): on a non-modifier key, `formatKeybind` produces the
active modifiers in the fixed order Ctrl, Alt, Shift followed by the
uppercased key (space rendered as the token `Space`), joined with `+`;
in particular Ctrl+Shift+a gives `Ctrl+Shift+A`, Space alone gives
`Space`, and Ctrl+Space ends in the token `Space`. -/
theorem formatKeybind_canonical :
    (∀ e : KeyboardEvent, ¬ modifierTokens.contains (jsToUpperCase e.key) →
      formatKeybind e = String.intercalate "+"
        ((if e.ctrlKey then ["Ctrl"] else []) ++
         (if e.altKey then ["Alt"] else []) ++
         (if e.shiftKey then ["Shift"] else []) ++
         [if jsToUpperCase e.key = " " then "Space" else jsToUpperCase e.key])) ∧
    formatKeybind ⟨true, false, true, "a"⟩ = "Ctrl+Shift+A" ∧
    formatKeybind ⟨false, false, false, " "⟩ = "Space" ∧
    formatKeybind ⟨true, false, false, " "⟩ = "Ctrl+Space" := by
  refine ⟨?_, by decide, by decide, by decide⟩
  intro e he
  rw [formatKeybind]
  simp only [Bool.not_eq_true, List.append_assoc]
  rw [if_neg he]

/-- Witness for C5's universally quantified part at the concrete event
Alt+x. -/
theorem formatKeybind_canonical_witness :
    (¬ modifierTokens.contains (jsToUpperCase "x")) ∧
    formatKeybind ⟨false, true, false, "x"⟩ = String.intercalate "+"
      ((if (false : Bool) then ["Ctrl"] else []) ++
       (if (true : Bool) then ["Alt"] else []) ++
       (if (false : Bool) then ["Shift"] else []) ++
       [if jsToUpperCase "x" = " " then "Space" else jsToUpperCase "x"]) :=
  ⟨by decide, formatKeybind_canonical.1 ⟨false, true, false, "x"⟩ (by decide)⟩

/-! ## Claim theorems: diagnostic log cap -/

/-- C2 (counterexample): as stated the claim caps the log at 100 entries
after any append, but appending to a log that already holds 100 entries
yields 101 entries, because the code keeps the last 100 of the previous
entries and then appends one more. -/
theorem addLog_exceeds_100 :
    (addLogUpdate (List.replicate 100 ⟨"", "", .info⟩) ⟨"", "", .info⟩).length = 101 ∧
    ¬ ((addLogUpdate (List.replicate 100 ⟨"", "", .info⟩) ⟨"", "", .info⟩).length ≤ 100) := by
  constructor
  · rw [addLogUpdate, List.length_append, List.length_drop, List.length_replicate]
    rfl
  · rw [addLogUpdate, List.length_append, List.length_drop, List.length_replicate]
    norm_num

/-- C2 (corrected): the log stays append-only and the new entry is
appended to the last 100 entries of the previous log, so after any append
the log holds `min (previous length) 100 + 1` entries — at most 101, not
at most 100 — and is a suffix of `previous ++ [entry]` (the most recent
entries in chronological order). -/
theorem addLog_cap_at_101 :
    ∀ (prev : List LogEntry) (entry : LogEntry),
      (addLogUpdate prev entry).length = min prev.length 100 + 1 ∧
      (addLogUpdate prev entry).IsSuffix (prev ++ [entry]) ∧
      (addLogUpdate prev entry).length ≤ 101 := by
  intro prev entry
  have hlen : (addLogUpdate prev entry).length = min prev.length 100 + 1 := by
    rw [addLogUpdate, List.length_append, List.length_drop]
    simp only [List.length_cons, List.length_nil]
    omega
  refine ⟨hlen, ?_, by omega⟩
  obtain ⟨t, ht⟩ := List.drop_suffix (prev.length - 100) prev
  exact ⟨t, by rw [addLogUpdate, ← List.append_assoc, ht]⟩

/-! ## Claim theorems: PlaybackQueueOrchestrator -/

/-- C3 (counterexample): the claim says a manual stop-all during active
queue playback clears the queue and the playing flag *and cancels the
polling timer*.  In the state with a one-element queue, playing, and the
poll interval active, `stopAllSounds` clears the first two but leaves the
interval running (`stopAllSounds` contains no `clearInterval`), so the
conjunction is false. -/
theorem stopAll_leaves_poll_running :
    ¬ ((stopAllSounds true ⟨["s1"], true, some "s1", true⟩).soundQueue = [] ∧
       (stopAllSounds true ⟨["s1"], true, some "s1", true⟩).isQueuePlaying = false ∧
       (stopAllSounds true ⟨["s1"], true, some "s1", true⟩).pollActive = false) := by
  decide

/-- C3 (corrected): a successful manual stop-all clears the local queue,
the queue-playing flag and the playing sound, but leaves the poll timer
exactly as it was; the timer cancels itself at the next tick that
observes the backend not playing, after which queue, flag and timer are
all cleared.  Both operations are idempotent and their effects are safe
in either order. -/
theorem stopAll_then_poll_cancels :
    ∀ (s : QueueState),
      (stopAllSounds true s).soundQueue = [] ∧
      (stopAllSounds true s).isQueuePlaying = false ∧
      (stopAllSounds true s).playingSound = none ∧
      (stopAllSounds true s).pollActive = s.pollActive ∧
      (queuePollTick false (stopAllSounds true s)).pollActive = false ∧
      (queuePollTick false (stopAllSounds true s)).soundQueue = [] ∧
      (queuePollTick false (stopAllSounds true s)).isQueuePlaying = false ∧
      (stopAllSounds true (queuePollTick false s)).soundQueue = [] ∧
      (stopAllSounds true (queuePollTick false s)).isQueuePlaying = false ∧
      stopAllSounds true (stopAllSounds true s) = stopAllSounds true s ∧
      queuePollTick false (queuePollTick false s) = queuePollTick false s := by
  intro s
  rcases s with ⟨q, p, ps, poll⟩
  cases poll <;> simp [stopAllSounds, queuePollTick]

/-- C10 (confirmed): `addToQueue` is atomic on error — a failed
`add_to_queue` call leaves the entire local state unchanged — and on
success the local queue becomes exactly the authoritative queue returned
by the backend (never a locally computed value: the result does not
depend on the previous queue). -/
theorem addToQueue_atomic :
    ∀ (s : QueueState) (r : Except Unit (List String)),
      (∀ err, r = .error err → addToQueue r s = s) ∧
      (∀ q, r = .ok q → addToQueue r s = { s with soundQueue := q }) := by
  intro s r
  constructor
  · rintro err rfl
    rfl
  · rintro q rfl
    rfl

/-- Witness for C10: a failing call leaves the state untouched and a
successful call installs exactly the backend queue. -/
theorem addToQueue_atomic_witness :
    addToQueue (Except.error ()) ⟨["a"], false, none, false⟩ =
      (⟨["a"], false, none, false⟩ : QueueState) ∧
    addToQueue (Except.ok ["x", "y"]) ⟨["a"], false, none, false⟩ =
      (⟨["x", "y"], false, none, false⟩ : QueueState) :=
  ⟨(addToQueue_atomic ⟨["a"], false, none, false⟩ (Except.error ())).1 () rfl,
   (addToQueue_atomic ⟨["a"], false, none, false⟩ (Except.ok ["x", "y"])).2 ["x", "y"] rfl⟩

/-! ## Claim theorems: drag-and-drop reorder -/

lemma findIdx?_some_spec {α : Type} [Inhabited α] (p : α → Bool) :
    ∀ (l : List α) (i j : ℕ), List.findIdx? p l i = some j →
      i ≤ j ∧ j - i < l.length ∧ p (l.getD (j - i) default) = true := by
  intro l
  induction l with
  | nil =>
    intro i j h
    rw [List.findIdx?_nil] at h
    exact absurd h (by simp)
  | cons x xs ih =>
    intro i j h
    rw [List.findIdx?_cons] at h
    by_cases hp : p x = true
    · rw [if_pos hp] at h
      obtain rfl : i = j := Option.some.inj h
      exact ⟨le_refl i, by simp, by rw [Nat.sub_self, List.getD_cons_zero]; exact hp⟩
    · rw [if_neg hp] at h
      obtain ⟨h1, h2, h3⟩ := ih (i + 1) j h
      refine ⟨by omega, by simp only [List.length_cons]; omega, ?_⟩
      have hji : j - i = (j - (i + 1)) + 1 := by omega
      rw [hji, List.getD_cons_succ]
      exact h3

lemma findIdx?_found {α : Type} [Inhabited α] (p : α → Bool) (l : List α) (j : ℕ)
    (h : List.findIdx? p l = some j) :
    j < l.length ∧ p (l.getD j default) = true := by
  obtain ⟨-, h2, h3⟩ := findIdx?_some_spec p l 0 j h
  rw [Nat.sub_zero] at h2 h3
  exact ⟨h2, h3⟩

lemma getD_cons_eraseIdx_perm {α : Type} [Inhabited α] :
    ∀ (l : List α) (i : ℕ), i < l.length → (l.getD i default :: l.eraseIdx i).Perm l := by
  intro l
  induction l with
  | nil => intro i h; simp at h
  | cons x xs ih =>
    intro i h
    cases i with
    | zero => rw [List.getD_cons_zero]; rfl
    | succ n =>
      rw [List.getD_cons_succ]
      show (xs.getD n default :: x :: xs.eraseIdx n).Perm (x :: xs)
      have h1 : (xs.getD n default :: xs.eraseIdx n).Perm xs :=
        ih n (by simp only [List.length_cons] at h; omega)
      exact (List.Perm.swap x (xs.getD n default) (xs.eraseIdx n)).trans (h1.cons x)

/-- C4 (confirmed): releasing a drag over its own origin id leaves the
sound list unchanged, and releasing over a different sound present in the
list performs exactly a single-element move: the dragged sound ends up at
the target's index, removing it from the result gives the same list as
removing it from the original (all other sounds keep their relative
order — in particular no swap), and the result is a permutation of the
original of the same length. -/
theorem reorder_is_single_move :
    ∀ (sounds : List Sound) (dragged target : String),
      handleMouseUpReorder sounds (some dragged) dragged = sounds ∧
      (∀ di ti, dragged ≠ target →
        sounds.findIdx? (fun s => s.id == dragged) = some di →
        sounds.findIdx? (fun s => s.id == target) = some ti →
        (handleMouseUpReorder sounds (some dragged) target).getD ti default =
            sounds.getD di default ∧
        (handleMouseUpReorder sounds (some dragged) target).eraseIdx ti =
            sounds.eraseIdx di ∧
        (handleMouseUpReorder sounds (some dragged) target).Perm sounds ∧
        (handleMouseUpReorder sounds (some dragged) target).length = sounds.length) := by
  intro sounds dragged target
  constructor
  · simp [handleMouseUpReorder]
  · intro di ti hne hdi hti
    have hres : handleMouseUpReorder sounds (some dragged) target =
        (sounds.eraseIdx di).insertIdx ti (sounds.getD di default) := by
      simp only [handleMouseUpReorder, if_neg hne, hdi, hti]
    obtain ⟨hdi_lt, -⟩ := findIdx?_found _ sounds di hdi
    obtain ⟨hti_lt, -⟩ := findIdx?_found _ sounds ti hti
    have hlen_erase : (sounds.eraseIdx di).length = sounds.length - 1 := by
      rw [List.length_eraseIdx, if_pos hdi_lt]
    have hti_le : ti ≤ (sounds.eraseIdx di).length := by omega
    have hlen : (handleMouseUpReorder sounds (some dragged) target).length =
        sounds.length := by
      rw [hres, List.length_insertIdx ti _ hti_le]
      omega
    refine ⟨?_, ?_, ?_, hlen⟩
    · have hti_lt2 : ti < (handleMouseUpReorder sounds (some dragged) target).length := by
        omega
      rw [List.getD_eq_getElem _ _ hti_lt2, List.getD_eq_getElem _ _ hdi_lt]
      simp only [hres]
      rw [List.getElem_insertIdx_self _ _ ti hti_le]
      rw [List.getD_eq_getElem _ _ hdi_lt]
    · rw [hres, List.eraseIdx_insertIdx]
    · rw [hres]
      exact (List.perm_insertIdx _ _ hti_le).trans
        (getD_cons_eraseIdx_perm sounds di hdi_lt)

/-- Witness for C4 on a three-sound library, dragging "a" onto "c". -/
theorem reorder_is_single_move_witness :
    (("a" : String) ≠ "c") ∧
    soundsABC.findIdx? (fun s => s.id == "a") = some 0 ∧
    soundsABC.findIdx? (fun s => s.id == "c") = some 2 ∧
    ((handleMouseUpReorder soundsABC (some "a") "c").getD 2 default =
        soundsABC.getD 0 default ∧
      (handleMouseUpReorder soundsABC (some "a") "c").eraseIdx 2 =
        soundsABC.eraseIdx 0 ∧
      (handleMouseUpReorder soundsABC (some "a") "c").Perm soundsABC ∧
      (handleMouseUpReorder soundsABC (some "a") "c").length = soundsABC.length) :=
  ⟨by decide, by decide, by decide,
    (reorder_is_single_move soundsABC "a" "c").2 0 2 (by decide) (by decide) (by decide)⟩

/-! ## Claim theorems: keybind replacement ordering -/

/-- C6 (confirmed): when an open recording session captures a non-modifier
key for a target that already has a bound chord, the backend unregister
call for the old chord is issued (and awaited: calls are listed in
issuance order of the sequential `await`s) strictly before the register
call for the new chord, and the session closes (recording target reset to
`none`) whatever the outcome `regOk` of the registration — registration
failures are caught inside the register helpers and only logged. -/
theorem keybind_unregister_before_register :
    ∀ (s : KeybindState) (e : KeyboardEvent) (regOk : Bool),
      ¬ pureModifierKeys.contains e.key →
      ((s.recordingKeybind = some .stopAll → s.stopAllKeybind ≠ "" →
        CallBefore (.unregisterStopAll s.stopAllKeybind)
          (.registerStopAll (formatKeybind e))
          (handleGlobalKeyDown e true regOk s).2 ∧
        (handleGlobalKeyDown e true regOk s).1.recordingKeybind = none) ∧
      (∀ snd old, s.recordingKeybind = some .sound → s.editingSound = some snd →
        snd.keybind = some old → old ≠ "" →
        CallBefore (.unregisterSound old) (.registerSound snd.id (formatKeybind e))
          (handleGlobalKeyDown e true regOk s).2 ∧
        (handleGlobalKeyDown e true regOk s).1.recordingKeybind = none)) := by
  intro s e regOk hmod
  constructor
  · intro hrec hold
    simp only [handleGlobalKeyDown, hrec, if_neg hmod, if_pos hold]
    constructor
    · exact ⟨[], [.registerStopAll (formatKeybind e),
        .setStopAllKeybindCmd (formatKeybind e)], rfl, by simp⟩
    · trivial
  · intro snd old hrec hsnd hkb holdne
    simp only [handleGlobalKeyDown, hrec, hsnd, hkb, if_neg hmod, if_pos holdne]
    constructor
    · exact ⟨[], [.registerSound snd.id (formatKeybind e)], rfl, by simp⟩
    · trivial

/-- Witness for C6: replacing the stop-all chord `F1`, with the
registration call failing (`regOk = false`). -/
theorem keybind_unregister_before_register_witness :
    (¬ pureModifierKeys.contains "a") ∧
    ((⟨some .stopAll, "F1", none⟩ : KeybindState).recordingKeybind =
      some RecordingTarget.stopAll) ∧
    (("F1" : String) ≠ "") ∧
    (CallBefore (.unregisterStopAll "F1")
      (.registerStopAll (formatKeybind ⟨false, false, false, "a"⟩))
      (handleGlobalKeyDown ⟨false, false, false, "a"⟩ true false
        ⟨some .stopAll, "F1", none⟩).2 ∧
     (handleGlobalKeyDown ⟨false, false, false, "a"⟩ true false
        ⟨some .stopAll, "F1", none⟩).1.recordingKeybind = none) :=
  ⟨by decide, rfl, by decide,
    (keybind_unregister_before_register ⟨some .stopAll, "F1", none⟩
      ⟨false, false, false, "a"⟩ false (by decide)).1 rfl (by decide)⟩

/-! ## Claim theorems: trim slider clamping -/

lemma jsOrQ_some_zero_default (x : ℚ) : jsOrQ (some x) 0 = x := by
  by_cases hx : x = 0
  · simp [jsOrQ, hx]
  · simp [jsOrQ, hx]

lemma jsOrQ_some_of_ne (x d : ℚ) (hx : x ≠ 0) : jsOrQ (some x) d = x := by
  simp [jsOrQ, hx]

/-- C7 (counterexample): on a 0.3-second clip with trim unset, moving the
start slider to 0 stores `startTime = min(0, 0.3 - 0.5) = -0.2`, which is
below 0, so the resulting bounds do not lie within [0, duration] as the
claim states for every trim edit on a clip of known duration. -/
theorem trim_short_clip_negative_start :
    (trimStartChange ⟨none, none⟩ (3/10) 0).startTime = some (-(1/5)) ∧
    ¬ (∀ q : ℚ, (trimStartChange ⟨none, none⟩ (3/10) 0).startTime = some q →
        0 ≤ q ∧ q ≤ 3/10) := by
  have h : (trimStartChange ⟨none, none⟩ (3/10) 0).startTime = some (-(1/5)) := by
    show some (min 0 (jsOrQ none (3/10) - 1/2)) = some (-(1/5))
    rw [show jsOrQ none (3/10) = 3/10 from rfl]
    norm_num
  refine ⟨h, fun hall => ?_⟩
  have := (hall (-(1/5)) h).1
  linarith

/-- C7 (corrected): for a trim edit whose slider value lies in
[0, duration], on a clip whose current effective bounds (start defaulting
to 0, end to the duration) satisfy 0 ≤ start, start + 0.5 ≤ end and
end ≤ duration (which forces duration ≥ 0.5), each slider keeps the
invariant: the resulting bounds satisfy start ≤ end − 0.5 and lie within
[0, duration], an attempted start above end − 0.5 is clamped down to
end − 0.5, and an attempted end below start + 0.5 is clamped up to
start + 0.5. -/
theorem trim_clamp_invariant (ts : TrimState) (duration v : ℚ)
    (hs0 : 0 ≤ jsOrQ ts.startTime 0)
    (hgap : jsOrQ ts.startTime 0 + 1/2 ≤ jsOrQ ts.endTime duration)
    (hend : jsOrQ ts.endTime duration ≤ duration)
    (hv0 : 0 ≤ v) (hvd : v ≤ duration) :
    (0 ≤ jsOrQ (trimStartChange ts duration v).startTime 0 ∧
     jsOrQ (trimStartChange ts duration v).startTime 0 + 1/2 ≤
       jsOrQ (trimStartChange ts duration v).endTime duration ∧
     jsOrQ (trimStartChange ts duration v).endTime duration ≤ duration ∧
     (jsOrQ ts.endTime duration - 1/2 < v →
       jsOrQ (trimStartChange ts duration v).startTime 0 =
         jsOrQ ts.endTime duration - 1/2)) ∧
    (0 ≤ jsOrQ (trimEndChange ts duration v).startTime 0 ∧
     jsOrQ (trimEndChange ts duration v).startTime 0 + 1/2 ≤
       jsOrQ (trimEndChange ts duration v).endTime duration ∧
     jsOrQ (trimEndChange ts duration v).endTime duration ≤ duration ∧
     (v < jsOrQ ts.startTime 0 + 1/2 →
       jsOrQ (trimEndChange ts duration v).endTime duration =
         jsOrQ ts.startTime 0 + 1/2)) := by
  have hsse : (trimStartChange ts duration v).startTime =
      some (min v (jsOrQ ts.endTime duration - 1/2)) := rfl
  have hsee : (trimStartChange ts duration v).endTime = ts.endTime := rfl
  have hese : (trimEndChange ts duration v).startTime = ts.startTime := rfl
  have heee : (trimEndChange ts duration v).endTime =
      some (max v (jsOrQ ts.startTime 0 + 1/2)) := rfl
  have hepos : max v (jsOrQ ts.startTime 0 + 1/2) ≠ 0 := by
    have : jsOrQ ts.startTime 0 + 1/2 ≤ max v (jsOrQ ts.startTime 0 + 1/2) :=
      le_max_right _ _
    intro hz
    rw [hz] at this
    linarith
  constructor
  · rw [hsse, hsee, jsOrQ_some_zero_default]
    refine ⟨le_min hv0 (by linarith), ?_, hend, ?_⟩
    · have := min_le_right v (jsOrQ ts.endTime duration - 1/2)
      linarith
    · intro hlt
      exact min_eq_right (le_of_lt hlt)
  · rw [hese, heee, jsOrQ_some_of_ne _ _ hepos]
    refine ⟨hs0, le_max_right _ _, max_le hvd (by linarith), ?_⟩
    intro hlt
    exact max_eq_right (le_of_lt hlt)

/-- Witness for C7 on a 10-second clip with trim unset and slider value 5. -/
theorem trim_clamp_invariant_witness :
    ((0:ℚ) ≤ jsOrQ (none : Option ℚ) 0 ∧
     jsOrQ (none : Option ℚ) 0 + 1/2 ≤ jsOrQ (none : Option ℚ) 10 ∧
     jsOrQ (none : Option ℚ) 10 ≤ 10 ∧ (0:ℚ) ≤ 5 ∧ (5:ℚ) ≤ 10) ∧
    (0 ≤ jsOrQ (trimStartChange ⟨none, none⟩ 10 5).startTime 0 ∧
     jsOrQ (trimStartChange ⟨none, none⟩ 10 5).startTime 0 + 1/2 ≤
       jsOrQ (trimStartChange ⟨none, none⟩ 10 5).endTime 10 ∧
     jsOrQ (trimStartChange ⟨none, none⟩ 10 5).endTime 10 ≤ 10 ∧
     (jsOrQ (none : Option ℚ) 10 - 1/2 < 5 →
       jsOrQ (trimStartChange ⟨none, none⟩ 10 5).startTime 0 =
         jsOrQ (none : Option ℚ) 10 - 1/2)) ∧
    (0 ≤ jsOrQ (trimEndChange ⟨none, none⟩ 10 5).startTime 0 ∧
     jsOrQ (trimEndChange ⟨none, none⟩ 10 5).startTime 0 + 1/2 ≤
       jsOrQ (trimEndChange ⟨none, none⟩ 10 5).endTime 10 ∧
     jsOrQ (trimEndChange ⟨none, none⟩ 10 5).endTime 10 ≤ 10 ∧
     (5 < jsOrQ (none : Option ℚ) 0 + 1/2 →
       jsOrQ (trimEndChange ⟨none, none⟩ 10 5).endTime 10 =
         jsOrQ (none : Option ℚ) 0 + 1/2)) :=
  have hyps : (0:ℚ) ≤ jsOrQ (none : Option ℚ) 0 ∧
      jsOrQ (none : Option ℚ) 0 + 1/2 ≤ jsOrQ (none : Option ℚ) 10 ∧
      jsOrQ (none : Option ℚ) 10 ≤ 10 ∧ (0:ℚ) ≤ 5 ∧ (5:ℚ) ≤ 10 := by
    refine ⟨le_refl 0, by norm_num [jsOrQ], by norm_num [jsOrQ], by norm_num, by norm_num⟩
  have happ := trim_clamp_invariant ⟨none, none⟩ 10 5
    hyps.1 hyps.2.1 hyps.2.2.1 hyps.2.2.2.1 hyps.2.2.2.2
  ⟨hyps, happ.1, happ.2⟩

end MotoBoard
